import Mathlib

/-!
Verification model of the foundation-data-factory data-refinement pipeline.

The definitions below are shallow embeddings of the Rust sources:
  crates/fdf-engine/src/plan.rs            (plan compilation and execution)
  crates/fdf-engine/src/io/writer/sharded.rs (sharded writer)
  crates/fdf-engine/src/io/writer/parquet.rs (parquet writer, schema evolution)
  crates/fdf-engine/src/io/writer/jsonl.rs   (jsonl writer)
  crates/fdf-engine/src/io/reader/jsonl.rs   (jsonl reader)
  crates/fdf-sdk/src/registry.rs           (operator registry)
  crates/fdf-sdk/src/sample.rs             (Sample = serde_json::Value object)

Machine integers that matter (usize counters, shard ids) are modelled as Nat;
none of the counters can overflow in the claims considered.  serde_json
numbers are modelled as either an i64 payload or an opaque f64 payload
(`is_i64` / `is_f64` discrimination is all the code uses).
-/

namespace FDF

/-- Model of serde_json number: either an i64 or an f64 (payload opaque;
the code only discriminates is_i64 / is_f64). -/
inductive JNum where
  | i64 (n : Int)
  | f64 (bits : Nat)
deriving Repr, DecidableEq

/-- Model of serde_json::Value.  An object is an association list in map
iteration order with unique keys. -/
inductive JValue where
  | null
  | b (x : Bool)
  | num (n : JNum)
  | s (x : String)
  | arr (xs : List JValue)
  | obj (kvs : List (String × JValue))
deriving Repr

/-- Association-list lookup, first matching key (models map get). -/
def assocFind {α : Type} : List (String × α) → String → Option α
  | [], _ => none
  | (k2, v) :: rest, k => if k2 = k then some v else assocFind rest k

/-- serde_json Value::get on an object (None on non-objects). -/
def JValue.get (v : JValue) (key : String) : Option JValue :=
  match v with
  | .obj kvs => assocFind kvs key
  | _ => none

/-- Sample::get_str from fdf-sdk sample.rs: `self.0.get(k)?.as_str()`. -/
def JValue.getStr (v : JValue) (key : String) : Option String :=
  match v.get key with
  | some (.s x) => some x
  | _ => none

/-- Keys of an object value (empty for non-objects), in iteration order. -/
def JValue.objKeys (v : JValue) : List String :=
  match v with
  | .obj kvs => kvs.map Prod.fst
  | _ => []

/-! ## Sharded writer (io/writer/sharded.rs)

State of the sequential-mode counters: `current_shard_id` and
`current_shard_count` of ShardedWriter. -/

structure SeqShardState where
  currentShardId : Nat
  currentShardCount : Nat
deriving Repr, DecidableEq

/-- ShardedWriter::check_and_advance_shard (sharded.rs lines 175-194):
if the current count has reached samples_per_shard, advance to the next
shard id and reset the count to 0 (the sample being routed is not counted);
otherwise increment the count and stay on the current shard. -/
def checkAndAdvanceShard (samplesPerShard : Nat) (st : SeqShardState) :
    Nat × SeqShardState :=
  if st.currentShardCount ≥ samplesPerShard then
    let nextId := st.currentShardId + 1
    (nextId, { currentShardId := nextId, currentShardCount := 0 })
  else
    (st.currentShardId, { st with currentShardCount := st.currentShardCount + 1 })

/-- Shard ids assigned to `k` successive sequential-mode writes starting
from state `st` (each write calls check_and_advance_shard once). -/
def seqShardAssign (samplesPerShard : Nat) : Nat → SeqShardState → List Nat
  | 0, _ => []
  | k + 1, st =>
    let (sid, st2) := checkAndAdvanceShard samplesPerShard st
    sid :: seqShardAssign samplesPerShard k st2

/-- Shard ids assigned to the first `k` records written through a fresh
sequential-mode ShardedWriter (initial id 0, initial count 0). -/
def seqShardAssignments (samplesPerShard k : Nat) : List Nat :=
  seqShardAssign samplesPerShard k ⟨0, 0⟩

/-- State of the keyed-mode ShardedWriter: the per-key count table
`shard_key_counts` plus the sequential counters used as fallback. -/
structure KeyedShardState where
  shardKeyCounts : List (String × Nat)
  seq : SeqShardState
deriving Repr, DecidableEq

/-- Store `v` under key `k` in the count table (insert or overwrite),
modelling `counts.entry(value).or_insert(0)` followed by mutation. -/
def updateCount : List (String × Nat) → String → Nat → List (String × Nat)
  | [], k, v => [(k, v)]
  | (k2, v2) :: rest, k, v =>
    if k2 = k then (k2, v) :: rest else (k2, v2) :: updateCount rest k v

/-- ShardedWriter::determine_shard_id (sharded.rs lines 134-172), keyed
branch: look up the record's string value at the shard key; hash it to a
base shard id (hash % 1000); if the per-key count has reached
samples_per_shard, compute base + count / N and reset the count to 0,
otherwise compute base + count / N; then increment the count.  Records
without the key fall back to sequential sharding. -/
def determineShardId (hash : String → Nat) (samplesPerShard : Nat)
    (shardKey : Option String) (st : KeyedShardState) (sample : JValue) :
    Nat × KeyedShardState :=
  match shardKey with
  | some key =>
    match sample.getStr key with
    | some value =>
      let count := (assocFind st.shardKeyCounts value).getD 0
      let baseShard := hash value % 1000
      let (shardId, countReset) :=
        if count ≥ samplesPerShard then
          (baseShard + count / samplesPerShard, 0)
        else
          (baseShard + count / samplesPerShard, count)
      (shardId,
        { st with shardKeyCounts := updateCount st.shardKeyCounts value (countReset + 1) })
    | none =>
      let (sid, seq2) := checkAndAdvanceShard samplesPerShard st.seq
      (sid, { st with seq := seq2 })
  | none =>
    let (sid, seq2) := checkAndAdvanceShard samplesPerShard st.seq
    (sid, { st with seq := seq2 })

/-- Shard ids assigned to successive keyed-mode writes of `samples`. -/
def keyedAssignAux (hash : String → Nat) (samplesPerShard : Nat) (key : String) :
    List JValue → KeyedShardState → List Nat
  | [], _ => []
  | sample :: rest, st =>
    let (sid, st2) := determineShardId hash samplesPerShard (some key) st sample
    sid :: keyedAssignAux hash samplesPerShard key rest st2

/-- Shard ids assigned to `samples` written through a fresh keyed-mode
ShardedWriter with shard key `key`. -/
def keyedAssignments (hash : String → Nat) (samplesPerShard : Nat) (key : String)
    (samples : List JValue) : List Nat :=
  keyedAssignAux hash samplesPerShard key samples ⟨[], ⟨0, 0⟩⟩

/-- A concrete stand-in for DefaultHasher in closed evaluations. -/
def hashLen (x : String) : Nat := x.length

/-- A record whose shard-key field "k" holds the string "v". -/
def sampleKV : JValue := .obj [("k", .s "v")]

/-! ## Operator contract and execution engine (fdf-sdk op.rs, fdf-engine plan.rs)

The engine is generic in the record type (Sample is passed opaquely through
the operator chain), so the embedding takes the record type as a parameter σ. -/

/-- Result of Operator::process: Ok(Some(sample)) keeps (possibly modified),
Ok(None) drops, Err(e) fails. -/
inductive OpResult (σ : Type) where
  | kept (s : σ)
  | dropped
  | failed (e : String)
deriving Repr

/-- An operator is its process function (op.rs): `process(record)`. -/
def Operator (σ : Type) : Type := σ → OpResult σ

/-- Whether a process result is Kept. -/
def isKept {σ : Type} : OpResult σ → Bool
  | .kept _ => true
  | _ => false

/-- Outcome of walking one record through the operator chain:
either it survived every operator, or it was filtered at step `i`
with pre-step state `sb` (plan.rs loop, lines 114-153). -/
inductive ChainOutcome (σ : Type) where
  | survived (s : σ)
  | filteredAt (i : Nat) (sb : σ)
deriving Repr, DecidableEq

/-- The operator loop of Plan::execute starting at step index `i`:
on Kept continue with the modified sample; on Dropped or Failed stop,
recording the step index and the sample as it was before that step
(sample_before_step).  The error payload of Failed is discarded. -/
def runChainAux {σ : Type} (ops : List (Operator σ)) (i : Nat) (s : σ) :
    ChainOutcome σ :=
  match ops with
  | [] => .survived s
  | op :: rest =>
    match op s with
    | .kept s2 => runChainAux rest (i + 1) s2
    | .dropped => .filteredAt i s
    | .failed _ => .filteredAt i s

/-- Walk a record through the whole chain from step 0. -/
def runChain {σ : Type} (ops : List (Operator σ)) (s : σ) : ChainOutcome σ :=
  runChainAux ops 0 s

/-- Apply a prefix of operators, requiring every one of them to return
Kept; returns the accumulated record state (the state "before the next
step"), or none if some operator in the prefix did not keep the record. -/
def applyKept {σ : Type} : List (Operator σ) → σ → Option σ
  | [], s => some s
  | op :: rest, s =>
    match op s with
    | .kept s2 => applyKept rest s2
    | _ => none

/-- Observable engine state built up by the Plan::execute loop: the three
output streams (each entry tagged with the 0-based source position it came
from), the per-step removal counters, and which writers were created.
`traceStream` entries are (step, position, pre-step sample). -/
structure EngineState (σ : Type) where
  finalStream : List (Nat × σ)
  traceStream : List (Nat × Nat × σ)
  errorStream : List (Nat × String)
  removed : List Nat
  traceCreated : List Nat
  finalCreated : Bool
  errCreated : Bool
  totalInput : Nat
deriving Repr

/-- State before any record is processed: empty streams, zeroed
documents_removed_at_step, no writers created. -/
def initState (σ : Type) (numOps : Nat) : EngineState σ :=
  ⟨[], [], [], List.replicate numOps 0, [], false, false, 0⟩

/-- One iteration of the Plan::execute reader loop (plan.rs lines 105-271)
on the item at source position `st.totalInput`:
a reader error goes to the error writer (created on first demand); a sample
walks the chain; a survivor goes to the final writer (created on first
demand); a filtered sample increments its step counter and, only when
tracing is enabled, is written to that step's trace writer (created on
first demand).  total_input_documents increments in every case. -/
def processItem {σ : Type} (enableTrace : Bool) (ops : List (Operator σ))
    (st : EngineState σ) (item : Except String σ) : EngineState σ :=
  let p := st.totalInput
  let st2 :=
    match item with
    | .ok sample =>
      match runChain ops sample with
      | .survived s2 =>
        { st with finalCreated := true, finalStream := st.finalStream ++ [(p, s2)] }
      | .filteredAt i sb =>
        let stR := { st with removed := st.removed.set i (st.removed.getD i 0 + 1) }
        if enableTrace then
          { stR with
            traceCreated :=
              if i ∈ stR.traceCreated then stR.traceCreated
              else stR.traceCreated ++ [i],
            traceStream := stR.traceStream ++ [(i, p, sb)] }
        else stR
    | .error e =>
      { st with errCreated := true, errorStream := st.errorStream ++ [(p, e)] }
  { st2 with totalInput := st.totalInput + 1 }

/-- Run the reader loop over a list of reader items. -/
def executeAux {σ : Type} (enableTrace : Bool) (ops : List (Operator σ)) :
    List (Except String σ) → EngineState σ → EngineState σ
  | [], st => st
  | item :: rest, st => executeAux enableTrace ops rest (processItem enableTrace ops st item)

/-- Plan::execute, reduced to its observable routing behaviour: process
every reader item in order starting from the empty state. -/
def execute {σ : Type} (enableTrace : Bool) (ops : List (Operator σ))
    (items : List (Except String σ)) : EngineState σ :=
  executeAux enableTrace ops items (initState σ ops.length)

/-- Source positions delivered to the final writer. -/
def finalPositions {σ : Type} (st : EngineState σ) : List Nat :=
  st.finalStream.map Prod.fst

/-- Source positions delivered to any trace step writer. -/
def tracePositions {σ : Type} (st : EngineState σ) : List Nat :=
  st.traceStream.map (fun e => e.2.1)

/-- Source positions delivered to the error writer. -/
def errorPositions {σ : Type} (st : EngineState σ) : List Nat :=
  st.errorStream.map Prod.fst

/-- All source positions delivered to any of the three output streams. -/
def allPositions {σ : Type} (st : EngineState σ) : List Nat :=
  finalPositions st ++ tracePositions st ++ errorPositions st

/-- An operator that drops every record (used in concrete evaluations). -/
def opDropAll : Operator Nat := fun _ => .dropped

/-- An operator that keeps every record unchanged. -/
def opKeepAll : Operator Nat := fun s => .kept s

/-- An operator that keeps every record, incrementing it. -/
def opIncr : Operator Nat := fun s => .kept (s + 1)

/-- An operator that fails on every record. -/
def opFailAll : Operator Nat := fun _ => .failed "boom"

/-- Lazy-writer invariant of the execute loop: a writer flag is set iff its
stream received a record, a trace step writer exists iff its stream received
a record, every created trace step has a positive removal counter, and the
counter vector keeps the pipeline length. -/
def EngineInv {σ : Type} (numOps : Nat) (st : EngineState σ) : Prop :=
  (st.finalCreated = true ↔ st.finalStream ≠ [])
  ∧ (st.errCreated = true ↔ st.errorStream ≠ [])
  ∧ (∀ i, i ∈ st.traceCreated ↔ ∃ p sb, (i, p, sb) ∈ st.traceStream)
  ∧ (∀ i, i ∈ st.traceCreated → 0 < st.removed.getD i 0)
  ∧ st.removed.length = numOps

/-! ## Parquet writer: schema evolution and batch assembly (io/writer/parquet.rs) -/

/-- Arrow logical data types the writer handles; `other` stands for any
arrow type outside the four supported ones. -/
inductive ArrowType where
  | utf8
  | int64
  | float64
  | boolean
  | other (tag : String)
deriving Repr, DecidableEq

/-- An arrow schema field; Field::new(name, data_type, nullable). -/
structure ArrowField where
  name : String
  dtype : ArrowType
  nullable : Bool
deriving Repr, DecidableEq

/-- An arrow schema, in field order. -/
abbrev ArrowSchema : Type := List ArrowField

/-- Collect all field names: the input-schema names followed by every key
seen in the buffered samples that is not already present, in order of first
occurrence (parquet.rs lines 66-81). -/
def collectFieldNames (inputSchema : ArrowSchema) (values : List JValue) :
    List String :=
  values.foldl
    (fun acc v =>
      match v with
      | .obj kvs =>
        kvs.foldl (fun acc2 kv => if kv.1 ∈ acc2 then acc2 else acc2 ++ [kv.1]) acc
      | _ => acc)
    (inputSchema.map ArrowField.name)

/-- Type inference for a new column (parquet.rs lines 94-105): take the
first buffered sample in which the key is present at all — a present null
matches the wildcard and yields Utf8 — and map string/i64/other-number/bool
to Utf8/Int64/Float64/Boolean, defaulting to Utf8. -/
def inferDataType (values : List JValue) (name : String) : ArrowType :=
  match (values.findSome? (fun v => v.get name) : Option JValue) with
  | some (.s _) => .utf8
  | some (.num (.i64 _)) => .int64
  | some (.num _) => .float64
  | some (.b _) => .boolean
  | some _ => .utf8
  | none => .utf8

/-- Field built for one collected name (the loop body of parquet.rs lines
84-109): a name found in the input schema keeps its type, a new name gets
the inferred type; every field is marked nullable. -/
def schemaFieldFor (inputSchema : ArrowSchema) (samples : List JValue)
    (name : String) : ArrowField :=
  match inputSchema.find? (fun f => f.name == name) with
  | some f => ⟨name, f.dtype, true⟩
  | none => ⟨name, inferDataType samples name, true⟩

/-- ParquetWriter::build_schema_from_samples (parquet.rs lines 57-112):
all input-schema names plus new keys from the buffered samples; known
columns keep the input type, new columns get the inferred type. -/
def buildSchemaFromSamples (inputSchema : ArrowSchema) (samples : List JValue) :
    ArrowSchema :=
  (collectFieldNames inputSchema samples).map (schemaFieldFor inputSchema samples)

/-- Type inference as the specification words it: from the first non-null
value of the column among the buffered records (string/int/float/bool). -/
def specInferDataType (values : List JValue) (name : String) : ArrowType :=
  match (values.findSome? (fun v =>
      match v.get name with
      | some .null => none
      | some w => some w
      | none => none) : Option JValue) with
  | some (.s _) => .utf8
  | some (.num (.i64 _)) => .int64
  | some (.num _) => .float64
  | some (.b _) => .boolean
  | some _ => .utf8
  | none => .utf8

/-- A materialized arrow cell (append_value payloads). -/
inductive CellValue where
  | str (x : String)
  | int (n : Int)
  | float (bits : Nat)
  | bool (x : Bool)
deriving Repr, DecidableEq

/-- One arrow column: name and per-row cells (none = appended null). -/
abbrev ArrowColumn : Type := String × List (Option CellValue)

/-- Build one column of the batch (parquet.rs lines 152-204): for each
row take the value at the column name; a value of the matching type is
appended, a missing key, a null, or a type mismatch appends null; a schema
type outside the four supported ones is an error. -/
def buildColumn (values : List JValue) (name : String) (dt : ArrowType) :
    Except String ArrowColumn :=
  match dt with
  | .utf8 => .ok (name, values.map (fun v =>
      match v.get name with
      | some (.s x) => some (.str x)
      | _ => none))
  | .int64 => .ok (name, values.map (fun v =>
      match v.get name with
      | some (.num (.i64 n)) => some (.int n)
      | _ => none))
  | .float64 => .ok (name, values.map (fun v =>
      match v.get name with
      | some (.num (.f64 b)) => some (.float b)
      | _ => none))
  | .boolean => .ok (name, values.map (fun v =>
      match v.get name with
      | some (.b x) => some (.bool x)
      | _ => none))
  | .other tag => .error ("Unsupported data type: " ++ tag)

/-- The column-building loop of samples_to_batch: one column per
target-schema field, stopping at the first unsupported type. -/
def buildColumns (samples : List JValue) : ArrowSchema → Except String (List ArrowColumn)
  | [] => .ok []
  | f :: fs => do
    let col ← buildColumn samples f.name f.dtype
    let rest ← buildColumns samples fs
    .ok (col :: rest)

/-- ParquetWriter::samples_to_batch (parquet.rs lines 132-210): error on an
empty buffer, otherwise build one column per target-schema field.  Keys of
the samples outside the target schema are never consulted. -/
def samplesToBatch (samples : List JValue) (targetSchema : ArrowSchema) :
    Except String (List ArrowColumn) :=
  if samples.isEmpty then .error "Cannot create batch from empty samples"
  else buildColumns samples targetSchema

/-- ParquetWriter state (parquet.rs lines 11-19): `actualSchema = some _`
exactly when the ArrowWriter has been initialized (both are set together on
the first non-empty flush). -/
structure ParquetWriterState where
  inputSchema : ArrowSchema
  actualSchema : Option ArrowSchema
  buffer : List JValue
  batches : List (List ArrowColumn)
  samplesWritten : Nat
  fileCreated : Bool

/-- ParquetWriter::new: nothing is created until the first flush. -/
def ParquetWriterState.new (schema : ArrowSchema) : ParquetWriterState :=
  ⟨schema, none, [], [], 0, false⟩

/-- ParquetWriter::init_writer (parquet.rs lines 35-54): on the first
non-empty flush, fix the on-disk schema from the buffered samples and
create the output file. -/
def ParquetWriterState.initWriter (st : ParquetWriterState) : ParquetWriterState :=
  if st.actualSchema.isSome then st
  else if st.buffer.isEmpty then st
  else
    { st with
      actualSchema := some (buildSchemaFromSamples st.inputSchema st.buffer),
      fileCreated := true }

/-- ParquetWriter::flush (parquet.rs lines 114-130): nothing on an empty
buffer; otherwise initialize if needed, assemble the batch against the
fixed schema, count the samples and clear the buffer. -/
def ParquetWriterState.flush (st : ParquetWriterState) :
    Except String ParquetWriterState :=
  if st.buffer.isEmpty then .ok st
  else
    let st2 := st.initWriter
    match st2.actualSchema with
    | none => .error "writer not initialized"
    | some sch =>
      (samplesToBatch st2.buffer sch).map (fun batch =>
        { st2 with
          batches := st2.batches ++ [batch],
          samplesWritten := st2.samplesWritten + st2.buffer.length,
          buffer := [] })

/-- ParquetWriter::write_sample: buffer the record, flushing automatically
at the partition size of 10000. -/
def ParquetWriterState.writeSample (st : ParquetWriterState) (s : JValue) :
    Except String ParquetWriterState :=
  let st2 := { st with buffer := st.buffer ++ [s] }
  if 10000 ≤ st2.buffer.length then st2.flush else .ok st2

/-- ParquetWriter::close (parquet.rs lines 225-239): flush, report whether
any sample was written, and delete the never-initialized empty file. -/
def ParquetWriterState.close (st : ParquetWriterState) :
    Except String (Bool × ParquetWriterState) :=
  (st.flush).map (fun st2 =>
    let hasData := st2.samplesWritten > 0
    if st2.actualSchema.isSome then (hasData, st2)
    else if hasData then (hasData, st2)
    else (hasData, { st2 with fileCreated := false }))

/-- Concrete buffer: a null value for "x" arrives before an integer one. -/
def c5Samples : List JValue :=
  [.obj [("x", .null)], .obj [("x", .num (.i64 1))]]

/-- Record carrying only the known column "x". -/
def c6First : JValue := .obj [("x", .num (.i64 1))]

/-- Record carrying "x" plus a column "y" outside the fixed schema. -/
def c6Second : JValue := .obj [("x", .num (.i64 2)), ("y", .s "new")]

/-- Run of the parquet writer that fixes the schema from the first record
and then receives a record with a new column: write, flush, write, flush. -/
def c6Run : Except String ParquetWriterState := do
  let st1 ← (ParquetWriterState.new []).writeSample c6First
  let st2 ← st1.flush
  let st3 ← st2.writeSample c6Second
  st3.flush

/-! ## Jsonl writer (io/writer/jsonl.rs) and sharded close (sharded.rs) -/

/-- JsonlWriter observable state: whether its output file exists, the rows
persisted through the BufWriter, the in-memory buffer, and
samples_written. -/
structure JsonlWriterState where
  fileExists : Bool
  fileRows : List JValue
  buffer : List JValue
  samplesWritten : Nat
deriving Repr

/-- JsonlWriter::new: File::create makes the file exist, empty. -/
def JsonlWriterState.new : JsonlWriterState := ⟨true, [], [], 0⟩

/-- JsonlWriter::flush (jsonl.rs lines 32-55): serialize the whole buffer
into the file, add its length to samples_written, clear it. -/
def JsonlWriterState.flushBuf (st : JsonlWriterState) : JsonlWriterState :=
  if st.buffer.isEmpty then st
  else
    { st with
      fileRows := st.fileRows ++ st.buffer,
      samplesWritten := st.samplesWritten + st.buffer.length,
      buffer := [] }

/-- JsonlWriter::write_sample: buffer the record, flushing automatically at
the partition size of 50000. -/
def JsonlWriterState.writeSample (st : JsonlWriterState) (s : JValue) :
    JsonlWriterState :=
  let st2 := { st with buffer := st.buffer ++ [s] }
  if 50000 ≤ st2.buffer.length then st2.flushBuf else st2

/-- JsonlWriter::close (jsonl.rs lines 70-84): flush everything, report
whether any record was written, and remove the file when none was. -/
def JsonlWriterState.close (st : JsonlWriterState) : Bool × JsonlWriterState :=
  let st2 := st.flushBuf
  if 0 < st2.samplesWritten then (true, st2)
  else (false, { st2 with fileExists := false })

/-- Write a whole sequence of records through the writer. -/
def JsonlWriterState.writeAll (st : JsonlWriterState) (ss : List JValue) :
    JsonlWriterState :=
  ss.foldl JsonlWriterState.writeSample st

/-- Invariant tying a jsonl writer state to the records written so far. -/
def JWInv (rows : List JValue) (st : JsonlWriterState) : Prop :=
  st.fileRows ++ st.buffer = rows
  ∧ st.samplesWritten = st.fileRows.length
  ∧ st.fileExists = true

/-- ShardedWriter::close (sharded.rs lines 214-224): close every
sub-writer in drain order, propagating the first error, and report whether
any sub-writer reported data. -/
def shardedCloseAll {W : Type} (closeSub : W → Except String Bool) :
    List (String × W) → Except String Bool
  | [] => .ok false
  | (_, w) :: rest => do
    let b ← closeSub w
    let brest ← shardedCloseAll closeSub rest
    .ok (b || brest)

/-- A concrete sub-writer close for evaluations: a sub-writer carrying a
count reports data iff the count is positive. -/
def natCloseSub (n : Nat) : Except String Bool := .ok (decide (0 < n))

/-! ## Operator registry and plan compilation (fdf-sdk registry.rs, plan.rs) -/

/-- A registry maps operator names to factories; a factory turns a config
value into an operator or a construction error.  Config and operator types
are opaque to the compiler. -/
def Registry (Cfg Op : Type) : Type := List (String × (Cfg → Except String Op))

/-- OperatorRegistry::build (registry.rs lines 44-50): unknown names fail
with an Unknown operator error, otherwise the factory runs on the config. -/
def registryBuild {Cfg Op : Type} (reg : Registry Cfg Op) (name : String)
    (config : Cfg) : Except String Op :=
  match assocFind reg name with
  | none => .error ("Unknown operator: " ++ name)
  | some factory => factory config

/-- One pipeline entry of the spec: operator name and its config value. -/
structure SpecOperatorNode (Cfg : Type) where
  name : String
  config : Cfg

/-- Plan::compile (plan.rs lines 30-40): build every pipeline operator in
declared order, failing on the first build error. -/
def planCompile {Cfg Op : Type} (reg : Registry Cfg Op)
    (pipeline : List (SpecOperatorNode Cfg)) :
    Except String (List (String × Op)) :=
  match pipeline with
  | [] => .ok []
  | node :: rest => do
    let op ← registryBuild reg node.name node.config
    let ops ← planCompile reg rest
    .ok ((node.name, op) :: ops)

/-- A concrete registry over Nat configs and Nat operators: "incr" always
builds, "bad" always rejects its config. -/
def natRegistry : Registry Nat Nat :=
  [("incr", fun c => .ok (c + 1)), ("bad", fun _ => .error "ConfigError: bad")]

/-! ## Jsonl reader (io/reader/jsonl.rs) -/

/-- JsonlReader iteration state: the pre-read first line (consumed by the
first next call) and the remaining lines of the file. -/
structure JsonlReaderState where
  currentLine : Option String
  remaining : List String
deriving Repr

/-- JsonlReader::new models the constructor having pre-read the first line
(an empty file reads as an empty first line, which is blank). -/
def JsonlReaderState.new (lines : List String) : JsonlReaderState :=
  ⟨some (lines.headD ""), lines.tail⟩

/-- Sample::from_value(value).unwrap_or_default(): non-objects become the
empty object. -/
def toSample (v : JValue) : JValue :=
  match v with
  | .obj kvs => .obj kvs
  | _ => .obj []

/-- Rust line.trim().is_empty(): a line is blank iff every character is
whitespace (trimming whitespace from both ends leaves the empty string
exactly then). -/
def isBlankLine (line : String) : Bool :=
  line.toList.all Char.isWhitespace

/-- Turn one line into the reader item the code yields for it: parsed
objects become samples, parse failures become error items. -/
def lineItem (parse : String → Option JValue) (line : String) :
    Except String JValue :=
  match parse line with
  | some v => .ok (toSample v)
  | none => .error ("Failed to parse JSON: " ++ line)

/-- JsonlReader::next (jsonl.rs lines 73-107): serve the pre-read line if
present (blank ends iteration); otherwise read the next line (end of file
or a blank line ends iteration); a non-blank line yields a parsed sample or
a parse-error item.  JSON parsing is an external library, taken as the
`parse` parameter. -/
def JsonlReaderState.next (parse : String → Option JValue)
    (st : JsonlReaderState) : Option (Except String JValue) × JsonlReaderState :=
  match st.currentLine with
  | some line =>
    let st2 : JsonlReaderState := ⟨none, st.remaining⟩
    if isBlankLine line then (none, st2)
    else (some (lineItem parse line), st2)
  | none =>
    match st.remaining with
    | [] => (none, st)
    | line :: rest =>
      let st2 : JsonlReaderState := ⟨none, rest⟩
      if isBlankLine line then (none, st2)
      else (some (lineItem parse line), st2)

/-- Drive the reader like the engine's for-loop: collect yielded items
until the first `none` (fuel bounds the recursion; it is always sufficient
since every step consumes a line). -/
def JsonlReaderState.run (parse : String → Option JValue)
    (st : JsonlReaderState) : Nat → List (Except String JValue)
  | 0 => []
  | fuel + 1 =>
    match st.next parse with
    | (none, _) => []
    | (some item, st2) => item :: st2.run parse fuel

/-- The item sequence a jsonl file with the given lines yields. -/
def jsonlItems (parse : String → Option JValue) (lines : List String) :
    List (Except String JValue) :=
  (JsonlReaderState.new lines).run parse (lines.length + 1)

end FDF

namespace FDF

/-- C3 evaluation: in sequential mode with samples_per_shard = 1, three
writes are assigned shards [0, 1, 1]: shard 1 (the last shard) receives
2 > 1 records, so not every non-last shard holds exactly N and the last
holds more than N. -/
theorem C3_sequential_offbyone :
    seqShardAssignments 1 3 = [0, 1, 1]
    ∧ (seqShardAssignments 1 3).count 1 = 2
    ∧ ¬ ∀ sid ∈ seqShardAssignments 1 3, (seqShardAssignments 1 3).count sid ≤ 1 := by
  exact ⟨rfl, rfl, by decide⟩

/-- C4 evaluation: in keyed mode with samples_per_shard = 2, four records
sharing key value "v" (base shard hash "v" % 1000 = 1 under hashLen) are
assigned shards [1, 1, 2, 1]: the base shard receives 3 > 2 records of the
key, violating the per-shard bound (the run {1, 2} is contiguous, but the
count reset sends the record after an advance back to the base shard). -/
theorem C4_keyed_overfill :
    keyedAssignments hashLen 2 "k" (List.replicate 4 sampleKV) = [1, 1, 2, 1]
    ∧ 2 < (keyedAssignments hashLen 2 "k" (List.replicate 4 sampleKV)).count 1 := by
  exact ⟨rfl, by decide⟩

/-! ### Engine lemmas -/

lemma processItem_totalInput {σ : Type} (et : Bool) (ops : List (Operator σ))
    (st : EngineState σ) (item : Except String σ) :
    (processItem et ops st item).totalInput = st.totalInput + 1 := by
  rcases item with e | s
  · rfl
  · simp only [processItem]

lemma processItem_perm {σ : Type} (ops : List (Operator σ)) (st : EngineState σ)
    (item : Except String σ) :
    (allPositions (processItem true ops st item)).Perm
      (st.totalInput :: allPositions st) := by
  rw [List.perm_iff_count]
  intro x
  rcases item with e | s
  · simp [processItem, allPositions, finalPositions, tracePositions, errorPositions,
      List.count_append, List.count_cons]
    omega
  · rcases hrc : runChain ops s with ⟨s2⟩ | ⟨i, sb⟩ <;>
      simp [processItem, hrc, allPositions, finalPositions, tracePositions, errorPositions,
        List.count_append, List.count_cons] <;>
      omega

lemma executeAux_perm {σ : Type} (ops : List (Operator σ)) :
    ∀ (items : List (Except String σ)) (st : EngineState σ),
    (allPositions (executeAux true ops items st)).Perm
      (allPositions st ++ List.range' st.totalInput items.length) := by
  intro items
  induction items with
  | nil => intro st; simp [executeAux]
  | cons item rest ih =>
    intro st
    have h1 := ih (processItem true ops st item)
    have h2 := processItem_perm ops st item
    have h3 := processItem_totalInput true ops st item
    rw [List.perm_iff_count]
    intro x
    have c1 := h1.count_eq x
    have c2 := h2.count_eq x
    rw [h3] at c1
    simp only [executeAux, List.count_append, List.count_cons, List.range'] at *
    omega

lemma runChainAux_append {σ : Type} :
    ∀ (pre : List (Operator σ)) (i : Nat) (s sb : σ),
      applyKept pre s = some sb →
      ∀ rest, runChainAux (pre ++ rest) i s = runChainAux rest (i + pre.length) sb := by
  intro pre
  induction pre with
  | nil =>
    intro i s sb h rest
    simp [applyKept] at h
    subst h
    simp [runChainAux]
  | cons op pre ih =>
    intro i s sb h rest
    rcases hos : op s with s2 | _ | e <;> simp [applyKept, hos] at h
    have hrec := ih (i + 1) s2 sb h rest
    have hlen : i + (op :: pre).length = i + 1 + pre.length := by
      simp
      omega
    calc runChainAux ((op :: pre) ++ rest) i s
        = runChainAux (pre ++ rest) (i + 1) s2 := by simp [runChainAux, hos]
      _ = runChainAux rest (i + 1 + pre.length) sb := hrec
      _ = runChainAux rest (i + (op :: pre).length) sb := by rw [hlen]

lemma runChainAux_bound {σ : Type} :
    ∀ (ops : List (Operator σ)) (i : Nat) (s : σ) (j : Nat) (sb : σ),
      runChainAux ops i s = .filteredAt j sb → i ≤ j ∧ j < i + ops.length := by
  intro ops
  induction ops with
  | nil => intro i s j sb h; simp [runChainAux] at h
  | cons op rest ih =>
    intro i s j sb h
    rcases hos : op s with s2 | _ | e <;> rw [runChainAux, hos] at h
    · have := ih (i + 1) s2 j sb h
      constructor <;> [omega; (simp; omega)]
    · cases h; constructor <;> simp
    · cases h; constructor <;> simp

lemma runChain_bound {σ : Type} (ops : List (Operator σ)) (s : σ) (j : Nat) (sb : σ)
    (h : runChain ops s = .filteredAt j sb) : j < ops.length := by
  have := runChainAux_bound ops 0 s j sb h
  omega

lemma getD_set_self : ∀ (l : List Nat) (i v : Nat), i < l.length →
    (l.set i v).getD i 0 = v := by
  intro l
  induction l with
  | nil => intro i v h; simp at h
  | cons a l ih =>
    intro i v h
    cases i with
    | zero => rfl
    | succ i => exact ih i v (by simpa using h)

lemma getD_set_ne : ∀ (l : List Nat) (i j v : Nat), i ≠ j →
    (l.set i v).getD j 0 = l.getD j 0 := by
  intro l
  induction l with
  | nil => intro i j v _; cases i <;> rfl
  | cons a l ih =>
    intro i j v hne
    cases i with
    | zero =>
      cases j with
      | zero => exact absurd rfl hne
      | succ j => rfl
    | succ i =>
      cases j with
      | zero => rfl
      | succ j => exact ih i j v (by omega)

lemma inv_initState {σ : Type} (numOps : Nat) : EngineInv numOps (initState σ numOps) := by
  refine ⟨by simp [initState], by simp [initState], ?_, ?_, by simp [initState]⟩
  · intro i; simp [initState]
  · intro i h; simp [initState] at h

lemma processItem_err_eq {σ : Type} (et : Bool) (ops : List (Operator σ))
    (st : EngineState σ) (e : String) :
    processItem et ops st (Except.error e) =
      { st with
        errCreated := true,
        errorStream := st.errorStream ++ [(st.totalInput, e)],
        totalInput := st.totalInput + 1 } := rfl

lemma processItem_ok_survived {σ : Type} (et : Bool) (ops : List (Operator σ))
    (st : EngineState σ) (s s2 : σ) (hrc : runChain ops s = .survived s2) :
    processItem et ops st (Except.ok s) =
      { st with
        finalCreated := true,
        finalStream := st.finalStream ++ [(st.totalInput, s2)],
        totalInput := st.totalInput + 1 } := by
  simp [processItem, hrc]

lemma processItem_ok_filtered_true {σ : Type} (ops : List (Operator σ))
    (st : EngineState σ) (s : σ) (i : Nat) (sb : σ)
    (hrc : runChain ops s = .filteredAt i sb) :
    processItem true ops st (Except.ok s) =
      { st with
        removed := st.removed.set i (st.removed.getD i 0 + 1),
        traceCreated :=
          if i ∈ st.traceCreated then st.traceCreated else st.traceCreated ++ [i],
        traceStream := st.traceStream ++ [(i, st.totalInput, sb)],
        totalInput := st.totalInput + 1 } := by
  simp [processItem, hrc]

lemma processItem_ok_filtered_false {σ : Type} (ops : List (Operator σ))
    (st : EngineState σ) (s : σ) (i : Nat) (sb : σ)
    (hrc : runChain ops s = .filteredAt i sb) :
    processItem false ops st (Except.ok s) =
      { st with
        removed := st.removed.set i (st.removed.getD i 0 + 1),
        totalInput := st.totalInput + 1 } := by
  simp [processItem, hrc]

lemma inv_processItem {σ : Type} (et : Bool) (ops : List (Operator σ))
    (st : EngineState σ) (item : Except String σ)
    (h : EngineInv ops.length st) :
    EngineInv ops.length (processItem et ops st item) := by
  obtain ⟨hfin, herr, htc, hpos, hlen⟩ := h
  rcases item with e | s
  · rw [processItem_err_eq]
    exact ⟨by simpa using hfin, by simp, htc, hpos, hlen⟩
  · rcases hrc : runChain ops s with ⟨s2⟩ | ⟨i, sb⟩
    · rw [processItem_ok_survived et ops st s s2 hrc]
      exact ⟨by simp, herr, htc, hpos, hlen⟩
    · have hbound : i < ops.length := runChain_bound ops s i sb hrc
      have hremlen : (st.removed.set i (st.removed.getD i 0 + 1)).length = ops.length := by
        simpa using hlen
      have hremget : ∀ j, j ∈ st.traceCreated ∨ j = i →
          0 < (st.removed.set i (st.removed.getD i 0 + 1)).getD j 0 := by
        intro j hj
        by_cases hij : i = j
        · subst hij
          rw [getD_set_self _ _ _ (by omega)]
          omega
        · rw [getD_set_ne _ _ _ _ hij]
          rcases hj with hj | hj
          · exact hpos j hj
          · exact absurd hj.symm hij
      cases et with
      | false =>
        rw [processItem_ok_filtered_false ops st s i sb hrc]
        exact ⟨hfin, herr, htc, fun j hj => hremget j (Or.inl hj), hremlen⟩
      | true =>
        rw [processItem_ok_filtered_true ops st s i sb hrc]
        have hcrIff : ∀ j,
            (j ∈ if i ∈ st.traceCreated then st.traceCreated else st.traceCreated ++ [i])
              ↔ (j ∈ st.traceCreated ∨ j = i) := by
          intro j
          by_cases hc : i ∈ st.traceCreated
          · rw [if_pos hc]
            constructor
            · exact Or.inl
            · rintro (hj | rfl)
              · exact hj
              · exact hc
          · rw [if_neg hc]
            simp
        refine ⟨hfin, herr, ?_, ?_, hremlen⟩
        · intro j
          rw [hcrIff j]
          constructor
          · rintro (hj | rfl)
            · rcases (htc j).mp hj with ⟨p, sb2, hp⟩
              exact ⟨p, sb2, List.mem_append_left _ hp⟩
            · exact ⟨st.totalInput, sb, List.mem_append_right _ (by simp)⟩
          · rintro ⟨p, sb2, hp⟩
            rcases List.mem_append.mp hp with hp | hp
            · exact Or.inl ((htc j).mpr ⟨p, sb2, hp⟩)
            · right
              simpa using congrArg (fun q => q.1) (List.mem_singleton.mp hp)
        · intro j hj
          exact hremget j ((hcrIff j).mp hj)

lemma inv_executeAux {σ : Type} (et : Bool) (ops : List (Operator σ)) :
    ∀ (items : List (Except String σ)) (st : EngineState σ),
      EngineInv ops.length st → EngineInv ops.length (executeAux et ops items st) := by
  intro items
  induction items with
  | nil => intro st h; exact h
  | cons item rest ih =>
    intro st h
    exact ih (processItem et ops st item) (inv_processItem et ops st item h)

/-! ### Engine claims -/

/-- C1 (amended: tracing enabled): for every pipeline and every source, with
tracing enabled, the source positions delivered to the final writer, to all
trace step writers, and to the error writer together form a permutation of
the positions 0..n-1 of the source items: the multiset union of the three
streams equals the multiset of source-row positions, and no row appears in
more than one stream. -/
theorem C1_partition {σ : Type} (ops : List (Operator σ))
    (items : List (Except String σ)) :
    (allPositions (execute true ops items)).Perm (List.range items.length) := by
  have h := executeAux_perm ops items (initState σ ops.length)
  simpa [allPositions, finalPositions, tracePositions, errorPositions, initState,
    execute, List.range_eq_range'] using h

/-- C1 counterexample: with tracing disabled (enable_trace = false), a
dropped row is delivered to no output stream at all, so the three streams do
not partition the source positions: one source row, one always-dropping
operator, and every stream stays empty. -/
theorem C1_counterexample :
    ¬ (allPositions (execute false [opDropAll]
          ([Except.ok 0] : List (Except String Nat)))).Perm
        (List.range ([Except.ok 0] : List (Except String Nat)).length) := by
  intro h
  have := h.length_eq
  simp [execute, executeAux, processItem, initState, opDropAll, runChain, runChainAux,
    allPositions, finalPositions, tracePositions, errorPositions] at this

/-- C2: with tracing enabled, if the operators before position i all return
Kept, turning the record `s` into `sb`, and the operator at position i does
not return Kept on `sb` (it returns Dropped or Failed — the conclusion is
the same for both, and the error text of Failed is discarded), then the
chain stops at step i with the pre-step state `sb` (no later operator is
invoked: the conclusion holds for every `post`), the trace writer of step i
receives exactly `sb` tagged with the source position, and the final stream
receives nothing. -/
theorem C2_step_attribution {σ : Type} (pre post : List (Operator σ))
    (op : Operator σ) (s sb : σ)
    (hpre : applyKept pre s = some sb) (hop : isKept (op sb) = false) :
    runChain (pre ++ op :: post) s = .filteredAt pre.length sb
    ∧ (execute true (pre ++ op :: post) [Except.ok s]).traceStream
        = [(pre.length, 0, sb)]
    ∧ (execute true (pre ++ op :: post) [Except.ok s]).finalStream = [] := by
  have hchain : runChain (pre ++ op :: post) s = .filteredAt pre.length sb := by
    unfold runChain
    rw [runChainAux_append pre 0 s sb hpre (op :: post)]
    rcases hos : op sb with s2 | _ | e
    · rw [hos] at hop
      simp [isKept] at hop
    · simp [runChainAux, hos]
    · simp [runChainAux, hos]
  have hex : execute true (pre ++ op :: post) [Except.ok s]
      = processItem true (pre ++ op :: post)
          (initState σ (pre ++ op :: post).length) (Except.ok s) := rfl
  rw [hex, processItem_ok_filtered_true _ _ _ _ _ hchain]
  exact ⟨hchain, by simp [initState], by simp [initState]⟩

/-- C2 witness: a three-operator pipeline where the middle operator fails;
the trace entry for step 1 holds the incremented pre-step state. -/
theorem C2_witness :
    runChain [opIncr, opFailAll, opKeepAll] 5 = .filteredAt 1 6
    ∧ (execute true [opIncr, opFailAll, opKeepAll] [Except.ok 5]).traceStream
        = [(1, 0, 6)]
    ∧ (execute true [opIncr, opFailAll, opKeepAll] [Except.ok 5]).finalStream = [] :=
  C2_step_attribution [opIncr] [opKeepAll] opFailAll 5 6 rfl rfl

/-- C8: the final writer exists iff some record reached the final stream,
the error writer exists iff some reader error reached the error stream, a
trace step writer exists iff its stream received a record (writers are
created on first demand, never-demanded writers are never created), and a
step whose removal counter is zero — an operator that never dropped or
failed a record — has no trace artifact. -/
theorem C8_lazy_writers {σ : Type} (et : Bool) (ops : List (Operator σ))
    (items : List (Except String σ)) :
    ((execute et ops items).finalCreated = true
        ↔ (execute et ops items).finalStream ≠ [])
    ∧ ((execute et ops items).errCreated = true
        ↔ (execute et ops items).errorStream ≠ [])
    ∧ (∀ i, i ∈ (execute et ops items).traceCreated
        ↔ ∃ p sb, (i, p, sb) ∈ (execute et ops items).traceStream)
    ∧ (∀ i, (execute et ops items).removed.getD i 0 = 0
        → i ∉ (execute et ops items).traceCreated) := by
  have h := inv_executeAux et ops items (initState σ ops.length)
    (inv_initState ops.length)
  obtain ⟨hfin, herr, htc, hpos, _⟩ := h
  refine ⟨hfin, herr, htc, ?_⟩
  intro i hz hmem
  have := hpos i hmem
  simp only [execute] at hz
  omega

/-- C8 witness: a run in which the only operator keeps the only record
creates no trace artifact for step 0. -/
theorem C8_witness :
    (0 : Nat) ∉ (execute true [opKeepAll] [Except.ok (3 : Nat)]).traceCreated :=
  (C8_lazy_writers true [opKeepAll] [Except.ok 3]).2.2.2 0 (by decide)

/-! ### Parquet schema lemmas -/

lemma mem_keyFold : ∀ (ks : List (String × JValue)) (acc : List String) (k : String),
    (k ∈ ks.foldl (fun a kv => if kv.1 ∈ a then a else a ++ [kv.1]) acc) ↔
      (k ∈ acc ∨ k ∈ ks.map Prod.fst) := by
  intro ks
  induction ks with
  | nil => intro acc k; simp
  | cons kv ks ih =>
    intro acc k
    rw [List.foldl_cons]
    by_cases hc : kv.1 ∈ acc
    · rw [if_pos hc, ih]
      constructor
      · rintro (h | h)
        · exact Or.inl h
        · exact Or.inr (List.mem_cons_of_mem _ h)
      · rintro (h | h)
        · exact Or.inl h
        · rcases List.mem_cons.mp h with rfl | h
          · exact Or.inl hc
          · exact Or.inr h
    · rw [if_neg hc, ih]
      simp only [List.mem_append, List.mem_singleton, List.map_cons, List.mem_cons]
      tauto

lemma nodup_keyFold : ∀ (ks : List (String × JValue)) (acc : List String),
    acc.Nodup → (ks.foldl (fun a kv => if kv.1 ∈ a then a else a ++ [kv.1]) acc).Nodup := by
  intro ks
  induction ks with
  | nil => intro acc h; exact h
  | cons kv ks ih =>
    intro acc h
    rw [List.foldl_cons]
    by_cases hc : kv.1 ∈ acc
    · rw [if_pos hc]; exact ih acc h
    · rw [if_neg hc]
      refine ih _ ?_
      simp [List.nodup_append, h, hc]

lemma mem_collectFold : ∀ (values : List JValue) (acc : List String) (k : String),
    (k ∈ values.foldl
        (fun acc v =>
          match v with
          | .obj kvs =>
            kvs.foldl (fun acc2 kv => if kv.1 ∈ acc2 then acc2 else acc2 ++ [kv.1]) acc
          | _ => acc) acc) ↔
      (k ∈ acc ∨ ∃ v ∈ values, k ∈ v.objKeys) := by
  intro values
  induction values with
  | nil => intro acc k; simp
  | cons v values ih =>
    intro acc k
    rw [List.foldl_cons]
    rcases v with _ | x | n | x | xs | kvs <;>
      simp only [JValue.objKeys, ih, mem_keyFold, List.mem_cons, List.map] <;>
      simp [JValue.objKeys] <;>
      tauto

lemma nodup_collectFold : ∀ (values : List JValue) (acc : List String),
    acc.Nodup →
    (values.foldl
        (fun acc v =>
          match v with
          | .obj kvs =>
            kvs.foldl (fun acc2 kv => if kv.1 ∈ acc2 then acc2 else acc2 ++ [kv.1]) acc
          | _ => acc) acc).Nodup := by
  intro values
  induction values with
  | nil => intro acc h; exact h
  | cons v values ih =>
    intro acc h
    rw [List.foldl_cons]
    rcases v with _ | x | n | x | xs | kvs <;> exact ih _ (by first | exact h | exact nodup_keyFold kvs acc h)

lemma mem_collectFieldNames (inputSchema : ArrowSchema) (samples : List JValue)
    (k : String) :
    k ∈ collectFieldNames inputSchema samples ↔
      (k ∈ inputSchema.map ArrowField.name ∨ ∃ v ∈ samples, k ∈ v.objKeys) :=
  mem_collectFold samples (inputSchema.map ArrowField.name) k

lemma nodup_collectFieldNames (inputSchema : ArrowSchema) (samples : List JValue)
    (h : (inputSchema.map ArrowField.name).Nodup) :
    (collectFieldNames inputSchema samples).Nodup :=
  nodup_collectFold samples (inputSchema.map ArrowField.name) h

lemma find?_map_of_name (g : String → ArrowField) (hg : ∀ n, (g n).name = n) :
    ∀ (names : List String) (k : String), k ∈ names →
      (names.map g).find? (fun f => f.name == k) = some (g k) := by
  intro names
  induction names with
  | nil => intro k h; simp at h
  | cons n ns ih =>
    intro k h
    rw [List.map_cons]
    by_cases hn : n = k
    · subst hn
      rw [List.find?_cons_of_pos _ (by simp [hg])]
    · rw [List.find?_cons_of_neg _ (by simp [hg, hn])]
      rcases List.mem_cons.mp h with rfl | h
      · exact absurd rfl hn
      · exact ih k h

lemma find?_self_of_nodup : ∀ (S : ArrowSchema),
    (S.map ArrowField.name).Nodup → ∀ f ∈ S,
      S.find? (fun x => x.name == f.name) = some f := by
  intro S
  induction S with
  | nil => intro _ f h; simp at h
  | cons x S ih =>
    intro hnd f hf
    rw [List.map_cons, List.nodup_cons] at hnd
    rcases List.mem_cons.mp hf with rfl | hf
    · rw [List.find?_cons_of_pos _ (by simp)]
    · have hxname : x.name ≠ f.name := by
        intro hEq
        apply hnd.1
        rw [hEq]
        exact List.mem_map_of_mem ArrowField.name hf
      rw [List.find?_cons_of_neg _ (by simp [hxname])]
      exact ih hnd.2 f hf

lemma schemaFieldFor_name (inputSchema : ArrowSchema) (samples : List JValue) :
    ∀ n, (schemaFieldFor inputSchema samples n).name = n := by
  intro n
  rcases h : inputSchema.find? (fun f => f.name == n) with _ | f <;>
    simp [schemaFieldFor, h]

/-- C5 counterexample: with an empty input schema and a buffer in which a
null value for column "x" precedes the integer 1, the code types "x" as
Utf8 (it consults the first sample in which the key is present, a null),
while the first non-null value is an integer, which the claim says must
yield Int64. -/
theorem C5_counterexample :
    buildSchemaFromSamples [] c5Samples = [⟨"x", ArrowType.utf8, true⟩]
    ∧ specInferDataType c5Samples "x" = ArrowType.int64
    ∧ inferDataType c5Samples "x" = ArrowType.utf8
    ∧ ArrowType.utf8 ≠ ArrowType.int64 :=
  ⟨rfl, rfl, rfl, by decide⟩

/-- C5 (amended: inference uses the first sample containing the column, a
null or non-primitive value defaulting to string): on the first flush the
on-disk schema is exactly the union of the input schema S₀ and the keys
observed across the buffered records — no duplicates, a column present iff
it is in S₀ or observed —, known columns keep the S₀ type, and each new
column gets the type of the value in the first buffered record containing
the key (string/int/float/bool; null, arrays and objects give string). -/
theorem C5_schema_evolution (S0 : ArrowSchema) (samples : List JValue)
    (hnodup : (S0.map ArrowField.name).Nodup) :
    ((buildSchemaFromSamples S0 samples).map ArrowField.name).Nodup
    ∧ (∀ k, k ∈ (buildSchemaFromSamples S0 samples).map ArrowField.name ↔
        (k ∈ S0.map ArrowField.name ∨ ∃ v ∈ samples, k ∈ v.objKeys))
    ∧ (∀ f ∈ S0,
        (buildSchemaFromSamples S0 samples).find? (fun g => g.name == f.name)
          = some ⟨f.name, f.dtype, true⟩)
    ∧ (∀ k, k ∉ S0.map ArrowField.name →
        k ∈ (buildSchemaFromSamples S0 samples).map ArrowField.name →
        (buildSchemaFromSamples S0 samples).find? (fun g => g.name == k)
          = some ⟨k, inferDataType samples k, true⟩) := by
  have hg := schemaFieldFor_name S0 samples
  have hnames : (buildSchemaFromSamples S0 samples).map ArrowField.name
      = collectFieldNames S0 samples := by
    rw [buildSchemaFromSamples, List.map_map]
    calc (collectFieldNames S0 samples).map
          (ArrowField.name ∘ schemaFieldFor S0 samples)
        = (collectFieldNames S0 samples).map id :=
          List.map_congr_left fun n _ => hg n
      _ = collectFieldNames S0 samples := List.map_id _
  refine ⟨?_, ?_, ?_, ?_⟩
  · rw [hnames]
    exact nodup_collectFieldNames S0 samples hnodup
  · intro k
    rw [hnames]
    exact mem_collectFieldNames S0 samples k
  · intro f hf
    have hmem : f.name ∈ collectFieldNames S0 samples :=
      (mem_collectFieldNames S0 samples f.name).mpr
        (Or.inl (List.mem_map_of_mem ArrowField.name hf))
    rw [buildSchemaFromSamples, find?_map_of_name _ hg _ _ hmem, schemaFieldFor,
      find?_self_of_nodup S0 hnodup f hf]
  · intro k hk hmem
    rw [hnames] at hmem
    have hnone : S0.find? (fun f => f.name == k) = none := by
      rw [List.find?_eq_none]
      intro f hf hbeq
      apply hk
      rw [show k = f.name from (beq_iff_eq.mp hbeq).symm]
      exact List.mem_map_of_mem ArrowField.name hf
    rw [buildSchemaFromSamples, find?_map_of_name _ hg _ _ hmem, schemaFieldFor, hnone]

/-- C5 witness: input schema holds column "a" typed Int64; the buffer adds
column "x" whose first occurrence is a null; the flushed schema keeps "a"
as Int64 and types "x" as Utf8 (first present value). -/
theorem C5_witness :
    (buildSchemaFromSamples [⟨"a", ArrowType.int64, false⟩] c5Samples).find?
        (fun g => g.name == "x")
      = some ⟨"x", inferDataType c5Samples "x", true⟩ :=
  (C5_schema_evolution [⟨"a", ArrowType.int64, false⟩] c5Samples (by decide)).2.2.2
    "x" (by decide) (by decide)

/-- C6 counterexample: the writer fixes its schema to the single column
"x" (Int64) on the first flush; a later record carrying the new column "y"
is then written and flushed without any error — the batch contains only
"x" and the value of "y" is silently dropped. -/
theorem C6_counterexample :
    (c6Run.map (fun st => (st.batches, st.samplesWritten)))
      = .ok ([[("x", [some (CellValue.int 1)])], [("x", [some (CellValue.int 2)])]], 2)
    ∧ (c6Run.map (fun st => st.batches.map (fun b => b.map Prod.fst)))
      = .ok [["x"], ["x"]] :=
  ⟨rfl, rfl⟩

/-- C6 (amended): once the on-disk schema is fixed, batch assembly never
fails because of record keys outside the schema — it reads only the fixed
schema's columns, so extra columns are silently ignored, and the batch's
columns are exactly the schema's fields (in order). -/
theorem C6_extra_columns_ignored (targetSchema : ArrowSchema) (samples : List JValue)
    (hne : samples ≠ [])
    (hsupported : ∀ f ∈ targetSchema, ∀ tag, f.dtype ≠ ArrowType.other tag) :
    (samplesToBatch samples targetSchema).map (fun b => b.map Prod.fst)
      = .ok (targetSchema.map ArrowField.name) := by
  rw [samplesToBatch, if_neg (by simpa using hne)]
  induction targetSchema with
  | nil => rfl
  | cons f fs ih =>
    have hf : ∀ tag, f.dtype ≠ ArrowType.other tag :=
      hsupported f (List.mem_cons_self f fs)
    have hcol : ∃ col, buildColumn samples f.name f.dtype = .ok (f.name, col) := by
      rcases f with ⟨name, dt, nb⟩
      rcases dt with _ | _ | _ | _ | tag
      · exact ⟨_, rfl⟩
      · exact ⟨_, rfl⟩
      · exact ⟨_, rfl⟩
      · exact ⟨_, rfl⟩
      · exact absurd rfl (hf tag)
    rcases hcol with ⟨col, hcol⟩
    have ihv := ih (fun g hg tag => hsupported g (List.mem_cons_of_mem f hg) tag)
    rcases hrest : buildColumns samples fs with err | batch
    · rw [hrest] at ihv
      simp [Except.map] at ihv
    · rw [hrest] at ihv
      simp only [Except.map, Except.ok.injEq] at ihv
      simp only [buildColumns, hcol, hrest, bind, Except.bind, Except.map, List.map_cons,
        Except.ok.injEq, List.map]
      rw [ihv]

/-- C6 witness: a fixed one-column Int64 schema accepts a record that also
carries the unknown column "y"; the assembled batch has exactly column "x". -/
theorem C6_witness :
    (samplesToBatch [c6Second] [⟨"x", ArrowType.int64, true⟩]).map
        (fun b => b.map Prod.fst)
      = .ok ([⟨"x", ArrowType.int64, true⟩].map ArrowField.name) :=
  C6_extra_columns_ignored [⟨"x", ArrowType.int64, true⟩] [c6Second]
    (by simp) (by intro f hf tag; simp at hf; subst hf; simp)

/-! ### Jsonl writer lemmas -/

lemma jw_inv_new : JWInv [] JsonlWriterState.new :=
  ⟨rfl, rfl, rfl⟩

lemma jw_inv_writeSample (rows : List JValue) (st : JsonlWriterState) (s : JValue)
    (h : JWInv rows st) : JWInv (rows ++ [s]) (st.writeSample s) := by
  obtain ⟨h1, h2, h3⟩ := h
  simp only [JsonlWriterState.writeSample]
  split
  · simp only [JsonlWriterState.flushBuf]
    split
    · next hemp => simp at hemp
    · refine ⟨?_, ?_, h3⟩
      · simp only [List.append_nil]
        rw [← h1, List.append_assoc]
      · simp only [List.length_append]
        rw [h2]
  · refine ⟨?_, h2, h3⟩
    rw [← h1, List.append_assoc]

lemma jw_inv_writeAll :
    ∀ (ss rows : List JValue) (st : JsonlWriterState),
      JWInv rows st → JWInv (rows ++ ss) (st.writeAll ss) := by
  intro ss
  induction ss with
  | nil => intro rows st h; simpa [JsonlWriterState.writeAll] using h
  | cons s ss ih =>
    intro rows st h
    have hstep := jw_inv_writeSample rows st s h
    have hrest := ih (rows ++ [s]) (st.writeSample s) hstep
    simpa [JsonlWriterState.writeAll, List.append_assoc] using hrest

lemma jw_flushBuf_final (rows : List JValue) (st : JsonlWriterState)
    (h : JWInv rows st) :
    st.flushBuf.fileRows = rows ∧ st.flushBuf.buffer = []
      ∧ st.flushBuf.samplesWritten = rows.length ∧ st.flushBuf.fileExists = true := by
  obtain ⟨h1, h2, h3⟩ := h
  simp only [JsonlWriterState.flushBuf]
  split
  · next hemp =>
    have hb : st.buffer = [] := by simpa using hemp
    rw [hb, List.append_nil] at h1
    exact ⟨h1, hb, by rw [h2, h1], h3⟩
  · refine ⟨h1, rfl, ?_, h3⟩
    rw [← h1]
    simp [h2]

lemma shardedCloseAll_spec {W : Type} (closeSub : W → Except String Bool) :
    ∀ (writers : List (String × W)),
      (∀ kw ∈ writers, ∃ b, closeSub kw.2 = Except.ok b) →
      ∃ b, shardedCloseAll closeSub writers = Except.ok b
        ∧ (b = true ↔ ∃ kw ∈ writers, closeSub kw.2 = Except.ok true) := by
  intro writers
  induction writers with
  | nil => intro _; exact ⟨false, rfl, by simp⟩
  | cons kw rest ih =>
    intro hok
    obtain ⟨k, w⟩ := kw
    obtain ⟨b, hb⟩ := hok (k, w) (List.mem_cons_self (k, w) rest)
    obtain ⟨br, hbr, hiff⟩ := ih (fun kw2 h2 => hok kw2 (List.mem_cons_of_mem (k, w) h2))
    refine ⟨b || br, ?_, ?_⟩
    · simp [shardedCloseAll, hb, hbr, bind, Except.bind]
    · constructor
      · intro hor
        have hor2 : b = true ∨ br = true := by
          cases b
          · exact Or.inr (by simpa using hor)
          · exact Or.inl rfl
        rcases hor2 with hbt | hbt
        · exact ⟨(k, w), List.mem_cons_self (k, w) rest, by rw [hb, hbt]⟩
        · obtain ⟨kw2, hm, hc⟩ := hiff.mp hbt
          exact ⟨kw2, List.mem_cons_of_mem (k, w) hm, hc⟩
      · rintro ⟨kw2, hm, hc⟩
        rcases List.mem_cons.mp hm with rfl | hm
        · have hbt : b = true := Except.ok.inj (hb.symm.trans hc)
          rw [hbt, Bool.true_or]
        · rw [hiff.mpr ⟨kw2, hm, hc⟩, Bool.or_true]

/-- C7: for the jsonl writer, close flushes the whole buffer (the persisted
rows equal exactly what was written, the buffer ends empty), the returned
boolean is true iff at least one record went through the writer, and a false
return removes the output file; the sharded writer's close closes every
sub-writer, propagating errors, and reports data iff at least one sub-writer
does. -/
theorem C7_close_reporting (ss : List JValue) {W : Type}
    (closeSub : W → Except String Bool) (writers : List (String × W))
    (hok : ∀ kw ∈ writers, ∃ b, closeSub kw.2 = Except.ok b) :
    ((JsonlWriterState.new.writeAll ss).close.1 = true ↔ ss ≠ [])
    ∧ (JsonlWriterState.new.writeAll ss).close.2.buffer = []
    ∧ (JsonlWriterState.new.writeAll ss).close.2.fileRows = ss
    ∧ ((JsonlWriterState.new.writeAll ss).close.1 = false →
        (JsonlWriterState.new.writeAll ss).close.2.fileExists = false)
    ∧ (∃ b, shardedCloseAll closeSub writers = Except.ok b
        ∧ (b = true ↔ ∃ kw ∈ writers, closeSub kw.2 = Except.ok true)) := by
  have hinv : JWInv ss (JsonlWriterState.new.writeAll ss) := by
    simpa using jw_inv_writeAll ss [] JsonlWriterState.new jw_inv_new
  obtain ⟨hrows, hbuf, hsw, hex⟩ :=
    jw_flushBuf_final ss (JsonlWriterState.new.writeAll ss) hinv
  have hshard := shardedCloseAll_spec closeSub writers hok
  simp only [JsonlWriterState.close]
  rw [hsw]
  by_cases hlen : 0 < ss.length
  · rw [if_pos hlen]
    have hne : ss ≠ [] := by
      intro hnil
      rw [hnil] at hlen
      simp at hlen
    refine ⟨by simp [hne], hbuf, hrows, ?_, hshard⟩
    intro hfalse
    simp at hfalse
  · rw [if_neg hlen]
    have hnil : ss = [] := by
      rcases ss with _ | ⟨a, ss⟩
      · rfl
      · simp at hlen
    refine ⟨by simp [hnil], hbuf, hrows, ?_, hshard⟩
    intro _
    rfl

/-- C7 witness: one record through a fresh jsonl writer reports data and
keeps the file; two sub-writers of which one holds data make the sharded
close report data. -/
theorem C7_witness :
    (((JsonlWriterState.new.writeAll [sampleKV]).close.1 = true
        ↔ ([sampleKV] : List JValue) ≠ [])
    ∧ (JsonlWriterState.new.writeAll [sampleKV]).close.2.buffer = []
    ∧ (JsonlWriterState.new.writeAll [sampleKV]).close.2.fileRows = [sampleKV]
    ∧ ((JsonlWriterState.new.writeAll [sampleKV]).close.1 = false →
        (JsonlWriterState.new.writeAll [sampleKV]).close.2.fileExists = false)
    ∧ (∃ b, shardedCloseAll natCloseSub [("a", 0), ("b", 2)] = Except.ok b
        ∧ (b = true
            ↔ ∃ kw ∈ [("a", 0), ("b", 2)], natCloseSub kw.2 = Except.ok true))) :=
  C7_close_reporting [sampleKV] natCloseSub [("a", 0), ("b", 2)]
    (by intro kw _; exact ⟨_, rfl⟩)

/-! ### Plan compilation lemmas -/

lemma planCompile_error_iff {Cfg Op : Type} (reg : Registry Cfg Op) :
    ∀ (pipeline : List (SpecOperatorNode Cfg)),
      (∃ err, planCompile reg pipeline = Except.error err) ↔
        ∃ node ∈ pipeline, ∃ err,
          registryBuild reg node.name node.config = Except.error err := by
  intro pipeline
  induction pipeline with
  | nil =>
    constructor
    · rintro ⟨err, herr⟩
      simp [planCompile] at herr
    · rintro ⟨node, hmem, _⟩
      simp at hmem
  | cons node rest ih =>
    rcases hb : registryBuild reg node.name node.config with err | op
    · constructor
      · intro _
        exact ⟨node, List.mem_cons_self node rest, err, hb⟩
      · intro _
        exact ⟨err, by simp [planCompile, hb, bind, Except.bind]⟩
    · rcases hrest : planCompile reg rest with err2 | ops
      · constructor
        · intro _
          obtain ⟨node2, hm, herr⟩ := ih.mp ⟨err2, hrest⟩
          exact ⟨node2, List.mem_cons_of_mem node hm, herr⟩
        · intro _
          exact ⟨err2, by simp [planCompile, hb, hrest, bind, Except.bind]⟩
      · constructor
        · rintro ⟨err, herr⟩
          simp [planCompile, hb, hrest, bind, Except.bind] at herr
        · rintro ⟨node2, hm, err, herr⟩
          rcases List.mem_cons.mp hm with rfl | hm
          · rw [hb] at herr
            simp at herr
          · obtain ⟨err2x, hx⟩ := ih.mpr ⟨node2, hm, err, herr⟩
            rw [hrest] at hx
            simp at hx

lemma planCompile_ok_spec {Cfg Op : Type} (reg : Registry Cfg Op) :
    ∀ (pipeline : List (SpecOperatorNode Cfg)) (ops : List (String × Op)),
      planCompile reg pipeline = Except.ok ops →
      ops.length = pipeline.length
      ∧ ∀ i (h1 : i < ops.length) (h2 : i < pipeline.length),
          (ops.get ⟨i, h1⟩).1 = (pipeline.get ⟨i, h2⟩).name
          ∧ registryBuild reg (pipeline.get ⟨i, h2⟩).name (pipeline.get ⟨i, h2⟩).config
              = Except.ok (ops.get ⟨i, h1⟩).2 := by
  intro pipeline
  induction pipeline with
  | nil =>
    intro ops h
    simp [planCompile] at h
    subst h
    exact ⟨rfl, fun i h1 h2 => absurd h1 (by simp)⟩
  | cons node rest ih =>
    intro ops h
    rcases hb : registryBuild reg node.name node.config with err | op <;>
      rw [planCompile] at h
    · rw [hb] at h
      simp [bind, Except.bind] at h
    · rw [hb] at h
      rcases hrest : planCompile reg rest with err2 | ops2 <;> rw [hrest] at h
      · simp [bind, Except.bind] at h
      · simp [bind, Except.bind, pure, Except.pure] at h
        subst h
        obtain ⟨hlen, hfields⟩ := ih ops2 hrest
        refine ⟨by simp [hlen], ?_⟩
        intro i h1 h2
        cases i with
        | zero => exact ⟨rfl, hb⟩
        | succ i =>
          have h1t : i < ops2.length := by simpa using h1
          have h2t : i < rest.length := by simpa using h2
          simpa using hfields i h1t h2t

/-- C9: plan compilation fails iff some pipeline entry fails to build —
either its name is unknown to the registry (yielding the Unknown operator
error) or its factory rejects the config; the empty pipeline always
compiles to the identity (no operators); and a pipeline whose every entry
builds compiles to exactly its operators, in declared order, each built by
its factory. -/
theorem C9_compile {Cfg Op : Type} (reg : Registry Cfg Op)
    (pipeline : List (SpecOperatorNode Cfg)) :
    (planCompile reg ([] : List (SpecOperatorNode Cfg)) = Except.ok [])
    ∧ (∀ name config, assocFind reg name = none →
        registryBuild reg name config = Except.error ("Unknown operator: " ++ name))
    ∧ ((∃ err, planCompile reg pipeline = Except.error err) ↔
        ∃ node ∈ pipeline, ∃ err,
          registryBuild reg node.name node.config = Except.error err)
    ∧ (∀ ops, planCompile reg pipeline = Except.ok ops →
        ops.length = pipeline.length
        ∧ ∀ i (h1 : i < ops.length) (h2 : i < pipeline.length),
            (ops.get ⟨i, h1⟩).1 = (pipeline.get ⟨i, h2⟩).name
            ∧ registryBuild reg (pipeline.get ⟨i, h2⟩).name
                (pipeline.get ⟨i, h2⟩).config
                = Except.ok (ops.get ⟨i, h1⟩).2) := by
  refine ⟨rfl, ?_, planCompile_error_iff reg pipeline, planCompile_ok_spec reg pipeline⟩
  intro name config hnone
  rw [registryBuild, hnone]

/-- C9 witness: a registered operator compiles in order; the unregistered
name "nope" yields the Unknown operator error. -/
theorem C9_witness :
    registryBuild natRegistry "nope" 7 = Except.error ("Unknown operator: " ++ "nope") :=
  (C9_compile natRegistry []).2.1 "nope" 7 rfl

/-! ### Jsonl reader lemmas -/

lemma jsonlRun_none (parse : String → Option JValue) :
    ∀ (rest : List String) (fuel : Nat), rest.length + 1 ≤ fuel →
      JsonlReaderState.run parse ⟨none, rest⟩ fuel
        = (rest.takeWhile (fun l => !isBlankLine l)).map (lineItem parse) := by
  intro rest
  induction rest with
  | nil =>
    intro fuel hf
    rcases fuel with _ | fuel
    · omega
    · rfl
  | cons line rest ih =>
    intro fuel hf
    rcases fuel with _ | fuel
    · omega
    · by_cases hblank : isBlankLine line
      · have hrun : JsonlReaderState.run parse ⟨none, line :: rest⟩ (fuel + 1) = [] := by
          simp [JsonlReaderState.run, JsonlReaderState.next, hblank]
        have htw : List.takeWhile (fun l => !isBlankLine l) (line :: rest) = [] := by
          simp [List.takeWhile_cons, hblank]
        rw [hrun, htw]
        rfl
      · have hrun : JsonlReaderState.run parse ⟨none, line :: rest⟩ (fuel + 1)
            = lineItem parse line :: JsonlReaderState.run parse ⟨none, rest⟩ fuel := by
          simp [JsonlReaderState.run, JsonlReaderState.next, hblank]
        have htw : List.takeWhile (fun l => !isBlankLine l) (line :: rest)
            = line :: List.takeWhile (fun l => !isBlankLine l) rest := by
          simp [List.takeWhile_cons, hblank]
        rw [hrun, htw, List.map_cons, ih fuel (by simpa using hf)]

/-- C10: the jsonl reader yields exactly one item per line of the maximal
prefix of non-blank lines: a blank (whitespace-only) line ends the
iteration, so records on later lines are never yielded; within that prefix
a line that parses yields the sample and a line that fails to parse yields
an error item, and iteration continues to the next line either way. -/
theorem C10_reader_stops_at_blank (parse : String → Option JValue)
    (lines : List String) :
    jsonlItems parse lines
      = (lines.takeWhile (fun l => !isBlankLine l)).map (lineItem parse) := by
  rcases lines with _ | ⟨line, rest⟩
  · have hblank : isBlankLine "" = true := rfl
    simp [jsonlItems, JsonlReaderState.new, JsonlReaderState.run, JsonlReaderState.next,
      hblank]
  · have hnew : JsonlReaderState.new (line :: rest) = ⟨some line, rest⟩ := rfl
    by_cases hblank : isBlankLine line
    · have hrun : jsonlItems parse (line :: rest) = [] := by
        simp [jsonlItems, hnew, JsonlReaderState.run, JsonlReaderState.next, hblank]
      have htw : List.takeWhile (fun l => !isBlankLine l) (line :: rest) = [] := by
        simp [List.takeWhile_cons, hblank]
      rw [hrun, htw]
      rfl
    · have hrun : jsonlItems parse (line :: rest)
          = lineItem parse line
              :: JsonlReaderState.run parse ⟨none, rest⟩ (rest.length + 1) := by
        simp [jsonlItems, hnew, JsonlReaderState.run, JsonlReaderState.next, hblank]
      have htw : List.takeWhile (fun l => !isBlankLine l) (line :: rest)
          = line :: List.takeWhile (fun l => !isBlankLine l) rest := by
        simp [List.takeWhile_cons, hblank]
      rw [hrun, htw, List.map_cons,
        jsonlRun_none parse rest (rest.length + 1) (by omega)]

end FDF
